import Mathlib

/-!
Verification of the polytropos schema/translation engine against its
natural-language specification.

The definitions below are a shallow embedding of the Python sources:

* `src/polytropos/ontology/variable/__variable.py` — the Variable/Track
  model, validators, casters, `check_ancestor`, `update_sort_order`;
* `src/polytropos/actions/translate/__document.py` — `DocumentValueProvider`;
* `src/polytropos/actions/translate/type_translators/__named_list.py` —
  the NamedList translator accumulation loop;
* `src/fixtures/conf/changes/vitals.py` — `CalculateWeightGain`.

Python dictionaries are modelled as association lists keyed by `String`
(insertion order preserved, keys unique where the source guarantees it);
exceptions are modelled with `Option`/nested `Option` (outer `none` = the
operation raised); recursion over parent chains is fueled, since the code
only terminates on acyclic tracks.
-/

namespace Polytropos

/-- The Python class hierarchy of `__variable.py`: `Variable` is the base
class; `Container` and `Primitive` extend it; `Folder` and `GenericList`
extend `Container`; `List` and `NamedList` extend `GenericList`; the ten
primitive kinds extend `Primitive`. -/
inductive PyClass where
  | base
  | container
  | primitive
  | folder
  | genericList
  | list
  | namedList
  | integer
  | text
  | decimal
  | unary
  | binary
  | currency
  | phone
  | email
  | url
  | date
  deriving DecidableEq, Repr, Fintype

/-- The method-resolution chain of each class: the class itself followed by
its superclasses, mirroring the `class C(B)` declarations in the source. -/
def mro : PyClass → List PyClass
  | .base => [.base]
  | .container => [.container, .base]
  | .primitive => [.primitive, .base]
  | .folder => [.folder, .container, .base]
  | .genericList => [.genericList, .container, .base]
  | .list => [.list, .genericList, .container, .base]
  | .namedList => [.namedList, .genericList, .container, .base]
  | .integer => [.integer, .primitive, .base]
  | .text => [.text, .primitive, .base]
  | .decimal => [.decimal, .primitive, .base]
  | .unary => [.unary, .primitive, .base]
  | .binary => [.binary, .primitive, .base]
  | .currency => [.currency, .primitive, .base]
  | .phone => [.phone, .primitive, .base]
  | .email => [.email, .primitive, .base]
  | .url => [.url, .primitive, .base]
  | .date => [.date, .primitive, .base]

/-- `isinstanceOf c target` models Python `isinstance(x, Target)` for an
object `x` of class `c`: true iff `target` occurs in `c`'s class chain. -/
def isinstanceOf (c target : PyClass) : Bool :=
  target ∈ mro c

/-- The concrete (instantiable) kinds: every variable in a track carries one
of these classes; `Variable`, `Container`, `Primitive` and `GenericList` are
abstract bases that are never instantiated. -/
def isConcrete (c : PyClass) : Bool :=
  c ∈ [PyClass.folder, PyClass.list, PyClass.namedList, PyClass.integer,
       PyClass.text, PyClass.decimal, PyClass.unary, PyClass.binary,
       PyClass.currency, PyClass.phone, PyClass.email, PyClass.url,
       PyClass.date]

/-- A schema variable: the structural attributes of `Variable.__init__`
(`var_id`, `name`, `sort_order`, `parent`, `sources`) plus the concrete
class and the per-variable memo `_cache`, modelled as the list of memoized
keys currently present (`"absolute_path"`, `"relative_path"`, `"tree"`,
`"descendants_that"`). -/
structure Variable where
  cls : PyClass
  var_id : String
  name : String
  sort_order : Int
  parent : Option String := none
  sources : List String := []
  cache : List String := []
  deriving DecidableEq, Repr

/-- A track: an insertion-ordered mapping from variable id to variable
(`Track._variables` in the source). -/
structure Track where
  vars : List (String × Variable)
  deriving DecidableEq, Repr

/-- `track[var_id]`: lookup by id. -/
def Track.lookup (t : Track) (vid : String) : Option Variable :=
  (t.vars.find? (fun p => p.1 = vid)).map Prod.snd

/-- `Variable.__eq__`: `isinstance(other, self.__class__) and
other.var_id == self.var_id`. -/
def Variable.pyEq (self other : Variable) : Bool :=
  isinstanceOf other.cls self.cls && other.var_id = self.var_id

/-- `Variable.__hash__`: `hash(self.var_id)`, for an arbitrary string hash
function `h` (the id is a string, never `None`, in every constructed
variable). -/
def Variable.pyHash (h : String → Int) (v : Variable) : Int :=
  h v.var_id

/-- Attribute update: a new `name`. -/
def Variable.withName (v : Variable) (x : String) : Variable :=
  { v with name := x }

/-- Attribute update: a new `parent`. -/
def Variable.withParent (v : Variable) (x : Option String) : Variable :=
  { v with parent := x }

/-- Attribute update: a new `sort_order`. -/
def Variable.withSortOrder (v : Variable) (x : Int) : Variable :=
  { v with sort_order := x }

/-- Attribute update: a new `sources` list. -/
def Variable.withSources (v : Variable) (x : List String) : Variable :=
  { v with sources := x }

/-- A raw value fed to the `Binary` caster: JSON null, a JSON boolean, or a
string (`Binary.cast` inspects exactly these shapes). -/
inductive BinRaw where
  | null
  | bool (b : Bool)
  | str (s : String)
  deriving DecidableEq, Repr

/-- `Binary.cast`: `None`/`""` map to absence; a `bool` is returned as-is;
otherwise the lowercased string must be one of `"1"`, `"true"`, `"0"`,
`"false"`, else `ValueError`. Outer `none` models the raised `ValueError`
(the spec's CastError); inner `none` models absence (`None`). -/
def Binary_cast : BinRaw → Option (Option Bool)
  | .null => some none
  | .bool b => some (some b)
  | .str s =>
    if s = "" then some none
    else
      let l := s.toLower
      if l = "1" ∨ l = "true" then some (some true)
      else if l = "0" ∨ l = "false" then some (some false)
      else none

/-- `Variable.check_ancestor(child_id, stop_at_list)`: looks up the
candidate, returns false at a root, returns false when `stop_at_list` is set
and the candidate's parent is a `GenericList`, returns true when the
candidate's parent is this variable, and otherwise recurses on the parent —
with the *default* `stop_at_list=False`, exactly as in the source
(`return self.check_ancestor(variable.parent)`). Fueled; `none` models a
`KeyError` on a missing id or fuel exhaustion (a cyclic track). -/
def check_ancestor (t : Track) (selfId : String) : Nat → String → Bool → Option Bool
  | 0, _, _ => none
  | fuel + 1, childId, stop =>
    match t.lookup childId with
    | none => none
    | some v =>
      match v.parent with
      | none => some false
      | some p =>
        if stop then
          match t.lookup p with
          | none => none
          | some pv =>
            if isinstanceOf pv.cls PyClass.genericList then some false
            else if p = selfId then some true
            else check_ancestor t selfId fuel p false
        else
          if p = selfId then some true
          else check_ancestor t selfId fuel p false

/-- The plain ancestor-chain predicate of the specification: the parent
chain starting at `childId` reaches `selfId` (no list condition). -/
def reaches (t : Track) (selfId : String) : Nat → String → Option Bool
  | 0, _ => none
  | fuel + 1, childId =>
    match t.lookup childId with
    | none => none
    | some v =>
      match v.parent with
      | none => some false
      | some p =>
        if p = selfId then some true
        else reaches t selfId fuel p

/-- The predicate the claim attributes to `check_ancestor` with
`stopAtList=true`: the parent chain starting at `childId` reaches `selfId`
without any `GenericList` strictly between the candidate and `selfId`. -/
def reaches_no_list (t : Track) (selfId : String) : Nat → String → Option Bool
  | 0, _ => none
  | fuel + 1, childId =>
    match t.lookup childId with
    | none => none
    | some v =>
      match v.parent with
      | none => some false
      | some p =>
        if p = selfId then some true
        else
          match t.lookup p with
          | none => none
          | some pv =>
            if isinstanceOf pv.cls PyClass.genericList then some false
            else reaches_no_list t selfId fuel p

/-- `_incompatible_type(source_var, variable)`: when the variable's class is
exactly `List`, the source's class must be `List` or `Folder`; otherwise the
two classes must be identical. -/
def _incompatible_type (sourceCls varCls : PyClass) : Bool :=
  if varCls = PyClass.list then
    !(sourceCls = PyClass.list || sourceCls = PyClass.folder)
  else
    decide (sourceCls ≠ varCls)

/-- `_check_folder_has_sources` succeeds (does not raise) iff the variable
is not a `Folder` or the source list is empty. -/
def _check_folder_has_sources_ok (v : Variable) (sources : List String) : Bool :=
  !(0 < sources.length && isinstanceOf v.cls PyClass.folder)

/-- `_verify_source_exists` succeeds iff the id is present in the upstream
(source) track. -/
def _verify_source_exists_ok (upstream : Track) (s : String) : Bool :=
  (upstream.lookup s).isSome

/-- `_verify_source_compatible` succeeds iff the source variable's class is
compatible with this variable's class per `_incompatible_type`. -/
def _verify_source_compatible_ok (v : Variable) (upstream : Track) (s : String) : Bool :=
  match upstream.lookup s with
  | none => false
  | some sv => !(_incompatible_type sv.cls v.cls)

/-- `Validator.validate_sources` with `init=False`: the folder check runs,
then every listed source must exist in the upstream track and be
type-compatible. `true` = no exception raised. -/
def validate_sources_noninit (v : Variable) (upstream : Track) (sources : List String) : Bool :=
  _check_folder_has_sources_ok v sources &&
    sources.all (fun s => _verify_source_exists_ok upstream s &&
      _verify_source_compatible_ok v upstream s)

/-- The sibling ids of a variable: every variable of the track whose
`parent` attribute equals this variable's `parent` (the source computes this
as `track.roots` when `parent is None` and as the parent's `children`
otherwise; both reduce to equality of the `parent` field). -/
def Track.siblingIds (t : Track) (v : Variable) : List String :=
  (t.vars.filter (fun p => p.2.parent = v.parent)).map Prod.fst

/-- `Variable.update_sort_order(old_order, new_order)`: a missing bound
defaults to `len(list(self.siblings)) + 1`; every sibling other than the
variable itself has its `sort_order` incremented when it is `≥ new_order`
and decremented when it is `≥ old_order`. -/
def Track.update_sort_order (t : Track) (selfId : String)
    (old_o new_o : Option Int) : Option Track :=
  match t.lookup selfId with
  | none => none
  | some v =>
    let sibCount : Int := (t.siblingIds v).length
    let oldO := old_o.getD (sibCount + 1)
    let newO := new_o.getD (sibCount + 1)
    some (Track.mk (t.vars.map (fun p =>
      if p.1 ≠ selfId ∧ p.2.parent = v.parent then
        (p.1, { p.2 with sort_order :=
          p.2.sort_order + (if newO ≤ p.2.sort_order then 1 else 0)
            - (if oldO ≤ p.2.sort_order then 1 else 0) })
      else p)))

/-- `Validator.validate_name`: the new name contains no `/` or `.` and does
not collide with the name of any *other* sibling. -/
def validate_name_ok (t : Track) (v : Variable) (nm : String) : Bool :=
  !(nm.data.contains '/') && !(nm.data.contains '.') &&
    ((t.vars.filter (fun p => p.2.parent = v.parent ∧ p.1 ≠ v.var_id)).all
      (fun p => p.2.name ≠ nm))

/-- Modelled from the spec: `Track.invalidate_variables_cache` (the `Track`
class itself is not under `src/`, only its call site in
`Variable.validate_attribute_value` is). Per the specification, derived
properties "are memoized per Variable and must be invalidated whenever any
Variable's `name`, `parent`, or `sort_order` changes anywhere in the same
Track", and the call site passes no variable identity, so the operation
clears the memo cache of every variable owned by the track. -/
def Track.invalidate_variables_cache (t : Track) : Track :=
  Track.mk (t.vars.map (fun p => (p.1, { p.2 with cache := [] })))

/-- Assigning `variable.name = nm`: `__setattr__` routes the write through
`validate_attribute_value`, which runs `Validator.validate_name` and — the
attribute being one of `sort_order`/`parent`/`name` — calls
`self.track.invalidate_variables_cache()`; then the new name is stored.
`none` models a raised `ValueError` (the write is rejected). -/
def Track.set_name (t : Track) (vid nm : String) : Option Track :=
  match t.lookup vid with
  | none => none
  | some v =>
    if validate_name_ok t v nm then
      some ((Track.mk (t.vars.map (fun p =>
        if p.1 = vid then (p.1, { p.2 with name := nm }) else p))).invalidate_variables_cache)
    else none

/-- A JSON-shaped document value: nested mappings (insertion-ordered, as
Python dicts), numbers (modelled as rationals — every literal in the claims
is exactly representable), strings, booleans, null. -/
inductive Value where
  | vdict : List (String × Value) → Value
  | vnum : ℚ → Value
  | vstr : String → Value
  | vbool : Bool → Value
  | vnull : Value

/-- Python `d[key]` on a dict modelled as an association list. -/
def dictGet : List (String × Value) → String → Option Value
  | [], _ => none
  | (k, v) :: rest, key => if k = key then some v else dictGet rest key

/-- Python `d[key] = x`: an existing key keeps its position, a new key is
appended (insertion-order semantics of Python dicts). -/
def dictSet : List (String × Value) → String → Value → List (String × Value)
  | [], key, x => [(key, x)]
  | (k, v) :: rest, key, x =>
    if k = key then (k, x) :: rest else (k, v) :: dictSet rest key x

/-- `DocumentValueProvider.value(path)`: walk the document by successive key
lookup; before each lookup the current value must be a dict, else `KeyError`
(`none`). -/
def valueWalk : Value → List String → Option Value
  | v, [] => some v
  | .vdict es, name :: rest =>
    match dictGet es name with
    | none => none
    | some w => valueWalk w rest
  | _, _ :: _ => none

/-- The names along `Variable.ancestors(None)`: the variable's own name
followed by the names of its parent chain up to the root (self first).
Fueled; `none` models a missing id or a cyclic track. -/
def ancestorNames (t : Track) : Nat → String → Option (List String)
  | 0, _ => none
  | fuel + 1, vid =>
    match t.lookup vid with
    | none => none
    | some v =>
      match v.parent with
      | none => some [v.name]
      | some p =>
        match ancestorNames t fuel p with
        | none => none
        | some rest => some (v.name :: rest)

/-- `DocumentValueProvider.variable_value(variable)` (with no stop id): an
empty document raises `SourceNotFoundException`; otherwise the reversed
ancestor-name chain is walked through the document, and a `KeyError`
(missing key or non-dict intermediate) is re-raised as
`SourceNotFoundException`. Outer `none` = model breakdown (missing id /
cycle); inner `none` = `SourceNotFoundException`; `some (some v)` = the
returned value. -/
def variable_value (t : Track) (fuel : Nat) (doc : List (String × Value))
    (vid : String) : Option (Option Value) :=
  match ancestorNames t fuel vid with
  | none => none
  | some names =>
    some (if doc.length = 0 then none else valueWalk (Value.vdict doc) names.reverse)

/-- The specification-side success relation for a document walk: the value
stored at the given root-to-leaf path. -/
inductive StoredAt : Value → List String → Value → Prop where
  | nil (v : Value) : StoredAt v [] v
  | cons {es : List (String × Value)} {n : String} {rest : List String}
      {w u : Value} : dictGet es n = some w → StoredAt w rest u →
      StoredAt (.vdict es) (n :: rest) u

/-- The specification-side failure condition for a document walk: some name
on the path is absent at its nesting level, or an intermediate value
reached along the path is not itself a nested mapping. -/
inductive WalkFails : Value → List String → Prop where
  | missingKey {es : List (String × Value)} {n : String} {rest : List String} :
      dictGet es n = none → WalkFails (.vdict es) (n :: rest)
  | notMapping {v : Value} {n : String} {rest : List String} :
      (∀ es, v ≠ .vdict es) → WalkFails v (n :: rest)
  | deeper {es : List (String × Value)} {n : String} {rest : List String}
      {w : Value} : dictGet es n = some w → WalkFails w rest →
      WalkFails (.vdict es) (n :: rest)

/-- `NamedListTranslator.process_source_value` for one source: iterate the
source mapping's key/item pairs in order; a key already present in the
accumulated result raises `ValueError` (the spec's DuplicateKeyError,
modelled as `none`); otherwise the translated item is inserted under the
key. `tr item source_id` stands for the nested-translator call
`self.translator.translate(item, self.variable.var_id, source_id)`. -/
def process_source_value (tr : Value → String → Value) (sourceId : String) :
    List (String × Value) → List (String × Value) → Option (List (String × Value))
  | [], acc => some acc
  | (k, item) :: rest, acc =>
    if (acc.map Prod.fst).contains k then none
    else process_source_value tr sourceId rest (acc ++ [(k, tr item sourceId)])

/-- The accumulation over all contributing sources of a NamedList target:
`initial_result` is the empty mapping and each source's mapping is processed
in order by `process_source_value`. -/
def named_list_accumulate (tr : Value → String → Value) :
    List (String × List (String × Value)) → List (String × Value) →
    Option (List (String × Value))
  | [], acc => some acc
  | (sid, sv) :: rest, acc =>
    match process_source_value tr sid sv acc with
    | none => none
    | some acc2 => named_list_accumulate tr rest acc2

/-- Every contributed key, across all sources in order. -/
def allKeys (sources : List (String × List (String × Value))) : List String :=
  (sources.map (fun p => p.2.map Prod.fst)).flatten

/-- The collision-free result: one translated entry per contributed key, in
contribution order. -/
def translatedAll (tr : Value → String → Value)
    (sources : List (String × List (String × Value))) : List (String × Value) :=
  (sources.map (fun p => p.2.map (fun q => (q.1, tr q.2 p.1)))).flatten

/-- Leap year per the proleptic Gregorian calendar used by
`datetime.date`. -/
def isLeapYear (y : Nat) : Bool :=
  y % 4 = 0 && (y % 100 ≠ 0 || y % 400 = 0)

/-- Number of days in a month (`datetime`'s calendar). -/
def daysInMonth (y m : Nat) : Nat :=
  if m = 2 then (if isLeapYear y then 29 else 28)
  else if m = 4 ∨ m = 6 ∨ m = 9 ∨ m = 11 then 30
  else 31

/-- The start codepoints of the Unicode `Nd` (decimal digit) blocks, per
Unicode 14.0 (the database of the CPython 3.11 reference runtime). Every
`Nd` block is a contiguous run of exactly ten codepoints carrying the
decimal values 0–9 in order. Python's `str.isdecimal` and the regex class
`\d` used by `_strptime` both accept exactly the characters of these
blocks, and `int()` reads each such character's in-block offset as its
digit value. -/
def ndStarts : List Nat :=
  [48, 1632, 1776, 1984, 2406, 2534, 2662, 2790, 2918, 3046, 3174, 3302,
   3430, 3558, 3664, 3792, 3872, 4160, 4240, 6112, 6160, 6470, 6608, 6784,
   6800, 6992, 7088, 7232, 7248, 42528, 43216, 43264, 43472, 43504, 43600,
   44016, 65296, 66720, 68912, 69734, 69872, 69942, 70096, 70384, 70736,
   70864, 71248, 71360, 71472, 71904, 72016, 72784, 73040, 73120, 92768,
   92864, 93008, 120782, 120792, 120802, 120812, 120822, 123200, 123632,
   125264, 130032]

/-- The start of the decimal-digit block containing codepoint `n`, if
any. -/
def ndBlockStart (n : Nat) : Option Nat :=
  ndStarts.find? (fun s => s ≤ n && n < s + 10)

/-- One-character `str.isdecimal` / membership in the regex class `\d`:
the character lies in some Unicode decimal-digit block. -/
def isDecimalChar (c : Char) : Bool :=
  (ndBlockStart c.toNat).isSome

/-- The decimal value `int()` assigns to a decimal-digit character: its
offset inside its block (0 on non-digits, which no use below reaches). -/
def decimalVal (c : Char) : Nat :=
  match ndBlockStart c.toNat with
  | some s => c.toNat - s
  | none => 0

/-- The regex class `[1-9]` (ASCII digits only). -/
def ascii19 (c : Char) : Bool :=
  49 ≤ c.toNat && c.toNat ≤ 57

/-- The month pattern of CPython's `_strptime`, `1[0-2]|0[1-9]|[1-9]`,
restricted to its two-character alternatives (in an exactly-10-character
`%Y-%m-%d` string, full consumption forces month and day to two characters
each): the character ranges here are ASCII literals, so a month written
with non-ASCII digits does not match. -/
def monthCharsOk (e f : Char) : Bool :=
  (e = '1' && (f = '0' || f = '1' || f = '2')) || (e = '0' && ascii19 f)

/-- The day pattern of CPython's `_strptime`,
`3[0-1]|[1-2]\d|0[1-9]|[1-9]| [1-9]`, restricted to its two-character
alternatives: `[1-2]\d` accepts any Unicode decimal digit in second
position, and a blank followed by an ASCII 1–9 is also a valid day. -/
def dayCharsOk (g i : Char) : Bool :=
  (g = '3' && (i = '0' || i = '1')) ||
  ((g = '1' || g = '2') && isDecimalChar i) ||
  (g = '0' && ascii19 i) ||
  (g = ' ' && ascii19 i)

/-- The day value `int()` computes from the matched day text (a leading
blank is stripped). -/
def dayVal (g i : Char) : Nat :=
  if g = ' ' then decimalVal i else 10 * decimalVal g + decimalVal i

/-- `datetime.strptime(s, "%Y-%m-%d")` on an exactly-10-character string:
`%Y` anchors four decimal digits (`\d\d\d\d`, any Unicode decimal digits);
because the whole string must be consumed ("unconverted data remains"
otherwise), the dashes sit at positions 4 and 7 and month and day are the
two-character shapes of the `_strptime` patterns above; `int()` then reads
the digit values, and the `datetime` constructor requires year at least 1
(at most 9999 is automatic from four digits), month 1–12 (automatic from
the pattern) and day between 1 and the month's true length. `true` = the
call does not raise. -/
def strptime_Ymd_ok (cs : List Char) : Bool :=
  match cs with
  | [a, b, c, d, s1, e, f, s2, g, i] =>
    s1 = '-' && s2 = '-' &&
    ([a, b, c, d].all isDecimalChar) && monthCharsOk e f && dayCharsOk g i &&
    (let y := 1000 * decimalVal a + 100 * decimalVal b + 10 * decimalVal c
        + decimalVal d
     let m := 10 * decimalVal e + decimalVal f
     let dd := dayVal g i
     1 ≤ y && 1 ≤ m && m ≤ 12 && 1 ≤ dd && dd ≤ daysInMonth y m)
  | _ => false

/-- `Date.cast`: `None`, `""` and `"000000"` map to absence; any other
6-character decimal numeral (`value.isdecimal()`, i.e. six Unicode decimal
digits) becomes `first4 ++ "-" ++ last2 ++ "-01"`; a string of length at
least 10 is truncated to its first 10 characters, which must parse as
`%Y-%m-%d` (else `ValueError`); everything else raises `ValueError`. The
caster's input is `None` or a string; outer `none` models the raised
error, inner `none` absence. -/
def Date_cast : Option String → Option (Option String)
  | none => some none
  | some s =>
    if s = "" ∨ s = "000000" then some none
    else if s.length = 6 && s.data.all isDecimalChar then
      some (some ((s.take 4) ++ "-" ++ (s.drop 4) ++ "-01"))
    else if 10 ≤ s.length then
      if strptime_Ymd_ok (s.data.take 10) then some (some (s.take 10)) else none
    else none

/-- The specification-side reading of "the first 10 characters parse as a
strict `YYYY-MM-DD` calendar date": the characters spell, in decimal
digits in the shapes `strptime`'s patterns admit, a date `(y, m, d)` that
is calendar-valid — year 1–9999, month 1–12, day within the month's true
length. -/
def IsStrictDate (cs : List Char) : Prop :=
  ∃ (y m d : Nat) (c1 c2 c3 c4 c6 c7 c9 c10 : Char),
    cs = [c1, c2, c3, c4, '-', c6, c7, '-', c9, c10] ∧
    isDecimalChar c1 = true ∧ isDecimalChar c2 = true ∧
    isDecimalChar c3 = true ∧ isDecimalChar c4 = true ∧
    monthCharsOk c6 c7 = true ∧ dayCharsOk c9 c10 = true ∧
    y = 1000 * decimalVal c1 + 100 * decimalVal c2 + 10 * decimalVal c3
      + decimalVal c4 ∧
    m = 10 * decimalVal c6 + decimalVal c7 ∧
    d = dayVal c9 c10 ∧
    1 ≤ y ∧ y ≤ 9999 ∧ 1 ≤ m ∧ m ≤ 12 ∧ 1 ≤ d ∧ d ≤ daysInMonth y m

/-- Modelled from the spec: `polytropos.util.nesteddicts.get` (the
`nesteddicts` module is not under `src/`). The spec describes "a generic
nested-path get/put utility": `get` walks the nested mappings by successive
key lookup; `none` models the error raised on a missing key or a non-dict
intermediate. -/
def ndGet : Value → List String → Option Value
  | v, [] => some v
  | .vdict es, k :: rest =>
    match dictGet es k with
    | none => none
    | some w => ndGet w rest
  | _, _ :: _ => none

/-- Modelled from the spec: `polytropos.util.nesteddicts.put` (the
`nesteddicts` module is not under `src/`). `put` walks the nested mappings,
creating an empty mapping for each missing intermediate key, and stores the
value under the final key; `none` models the error raised when an existing
intermediate value is not itself a mapping. -/
def ndPut : Value → List String → Value → Option Value
  | _, [], x => some x
  | .vdict es, k :: rest, x =>
    match ndPut (match dictGet es k with | some c => c | none => Value.vdict []) rest x with
    | none => none
    | some newChild => some (.vdict (dictSet es k newChild))
  | _, _ :: _, _ => none

/-- `put` succeeds along this path: every existing value on the walk is a
mapping (missing intermediates are created and always succeed). -/
def putOk : Value → List String → Bool
  | _, [] => true
  | .vdict es, k :: rest =>
    (match dictGet es k with
     | none => true
     | some c => putOk c rest)
  | _, _ :: _ => false

/-- Two paths diverge: at some position inside both, their keys differ (so
neither is a prefix of the other). -/
def pathDiverges : List String → List String → Bool
  | [], _ => false
  | _, [] => false
  | a :: as, b :: bs => a ≠ b || pathDiverges as bs

/-- Python string comparison `a < b`: lexicographic on code points. -/
def charListLt : List Char → List Char → Bool
  | [], [] => false
  | [], _ :: _ => true
  | _ :: _, [] => false
  | c :: cs, d :: ds =>
    if c.toNat < d.toNat then true
    else if d.toNat < c.toNat then false
    else charListLt cs ds

/-- Python `a < b` on strings. -/
def strLt (a b : String) : Bool :=
  charListLt a.data b.data

/-- Python `min` over a non-empty iterable of strings (first minimum
wins). -/
def listMinS : List String → Option String
  | [] => none
  | x :: xs => some (xs.foldl (fun r y => if strLt y r then y else r) x)

/-- Python `max` over a non-empty iterable of strings (first maximum
wins). -/
def listMaxS : List String → Option String
  | [] => none
  | x :: xs => some (xs.foldl (fun r y => if strLt r y then y else r) x)

/-- `CalculateWeightGain.__call__(composite)`: the period labels are the
top-level keys other than `"invariant"`; the weight value is read under the
earliest (minimum) and latest (maximum) label at the weight variable's
absolute path; their difference is written under
`["invariant"] + weight_gain_path`. The two weight paths are passed in as
the variables' absolute paths. `none` models any raised error (no periods,
missing weight, non-numeric weight, or a failing `put`). -/
def weight_gain_call (weightPath gainPath : List String)
    (composite : List (String × Value)) : Option (List (String × Value)) :=
  match listMinS ((composite.map Prod.fst).filter (fun k => k ≠ "invariant")),
        listMaxS ((composite.map Prod.fst).filter (fun k => k ≠ "invariant")) with
  | some earliest, some latest =>
    match ndGet (.vdict composite) (earliest :: weightPath),
          ndGet (.vdict composite) (latest :: weightPath) with
    | some (.vnum a), some (.vnum b) =>
      match ndPut (.vdict composite) ("invariant" :: gainPath) (.vnum (b - a)) with
      | some (.vdict es) => some es
      | _ => none
    | _, _ => none
  | _, _ => none

/-! ## Theorems -/

/-- On concrete classes, `isinstance(x, C)` holds exactly for `x` of class
`C` itself: no concrete kind is a subclass of another concrete kind. -/
theorem isinstance_concrete : ∀ c d : PyClass, isConcrete c = true →
    isConcrete d = true → (isinstanceOf c d = true ↔ c = d) := by
  decide

/-- C7 (counterexample): the claim says every input other than null, the
empty string and the four marker strings raises a CastError, but
`Binary.cast` returns a boolean input unchanged: `cast(True)` is `True`,
not an error. -/
theorem claim_C7_counterexample :
    Binary_cast (BinRaw.bool true) = some (some true) ∧
      Binary_cast (BinRaw.bool true) ≠ none := by
  decide

/-- C7 (amended): the Binary caster maps null and the empty string to
absence, returns a boolean input as-is, maps the case-insensitive strings
"1"/"true" to true and "0"/"false" to false, and raises CastError on every
other *string*. -/
theorem claim_C7_amended :
    Binary_cast BinRaw.null = some none ∧
    Binary_cast (BinRaw.str "") = some none ∧
    (∀ b : Bool, Binary_cast (BinRaw.bool b) = some (some b)) ∧
    (∀ s : String, s ≠ "" →
      ((Binary_cast (BinRaw.str s) = some (some true)) ↔
        (s.toLower = "1" ∨ s.toLower = "true")) ∧
      ((Binary_cast (BinRaw.str s) = some (some false)) ↔
        (s.toLower = "0" ∨ s.toLower = "false")) ∧
      ((Binary_cast (BinRaw.str s) = none) ↔
        ¬(s.toLower = "1" ∨ s.toLower = "true" ∨ s.toLower = "0" ∨
          s.toLower = "false"))) := by
  refine ⟨rfl, rfl, fun b => rfl, fun s hs => ?_⟩
  simp only [Binary_cast, if_neg hs]
  by_cases h1 : s.toLower = "1" ∨ s.toLower = "true"
  · rcases h1 with h | h <;> simp [h]
  · rw [if_neg h1]
    by_cases h0 : s.toLower = "0" ∨ s.toLower = "false"
    · rcases h0 with h | h <;> simp [h]
    · rw [if_neg h0]
      push_neg at h1 h0
      simp [h1.1, h1.2, h0.1, h0.2]

/-- C7 (witness): the amended theorem applied to the concrete input
`"TRUE"`. -/
theorem claim_C7_amended_witness :
    ("TRUE" : String) ≠ "" ∧
      (Binary_cast (BinRaw.str "TRUE") = some (some true) ↔
        ("TRUE".toLower = "1" ∨ "TRUE".toLower = "true")) :=
  ⟨by decide, (claim_C7_amended.2.2.2 "TRUE" (by decide)).1⟩

/-- C10: for variables of concrete kind, `__eq__` holds exactly when the
concrete class and the `var_id` agree; `__eq__` and `__hash__` ignore
`name`, `parent`, `sort_order` and `sources`; and the hash depends only on
`var_id`. -/
theorem claim_C10 :
    (∀ a b : Variable, isConcrete a.cls = true → isConcrete b.cls = true →
      (Variable.pyEq a b = true ↔ (a.cls = b.cls ∧ a.var_id = b.var_id))) ∧
    (∀ (a : Variable) (x : String) (y : Option String) (z : Int)
        (w : List String) (b : Variable),
      Variable.pyEq ((((a.withName x).withParent y).withSortOrder z).withSources w) b
        = Variable.pyEq a b ∧
      Variable.pyEq b ((((a.withName x).withParent y).withSortOrder z).withSources w)
        = Variable.pyEq b a) ∧
    (∀ (h : String → Int) (a : Variable) (x : String) (y : Option String)
        (z : Int) (w : List String),
      Variable.pyHash h ((((a.withName x).withParent y).withSortOrder z).withSources w)
        = Variable.pyHash h a) ∧
    (∀ (h : String → Int) (a b : Variable), a.var_id = b.var_id →
      Variable.pyHash h a = Variable.pyHash h b) := by
  refine ⟨fun a b ha hb => ?_, fun a x y z w b => ⟨rfl, rfl⟩,
    fun h a x y z w => rfl, fun h a b hab => ?_⟩
  · simp only [Variable.pyEq, Bool.and_eq_true, decide_eq_true_eq,
      isinstance_concrete b.cls a.cls hb ha]
    constructor
    · rintro ⟨h1, h2⟩; exact ⟨h1.symm, h2.symm⟩
    · rintro ⟨h1, h2⟩; exact ⟨h1.symm, h2.symm⟩
  · simp only [Variable.pyHash, hab]

/-- C10 (witness): the equality characterization applied to two concrete
`Text` variables sharing `var_id` but differing in every other
attribute. -/
theorem claim_C10_witness :
    isConcrete PyClass.text = true ∧
      (Variable.pyEq ⟨PyClass.text, "v1", "a", 0, none, [], []⟩
          ⟨PyClass.text, "v1", "b", 3, some "p", ["s"], []⟩ = true ↔
        (PyClass.text = PyClass.text ∧ ("v1" : String) = "v1")) :=
  ⟨by decide, claim_C10.1 ⟨PyClass.text, "v1", "a", 0, none, [], []⟩
    ⟨PyClass.text, "v1", "b", 3, some "p", ["s"], []⟩ (by decide) (by decide)⟩

/-- `_check_folder_has_sources` succeeds iff the variable is not a Folder
or the source list is empty. -/
theorem folder_ok_iff (v : Variable) (srcs : List String) :
    _check_folder_has_sources_ok v srcs = true ↔
      (isinstanceOf v.cls PyClass.folder = false ∨ srcs = []) := by
  rcases srcs with _ | ⟨a, as⟩ <;>
    simp [_check_folder_has_sources_ok, Nat.succ_pos]

/-- One source passes the existence and compatibility checks iff it resolves
in the upstream track to a variable of the same class — or of class `List`
or `Folder` when the referencing variable's class is exactly `List`. -/
theorem source_ok_iff (v : Variable) (up : Track) (s : String) :
    (_verify_source_exists_ok up s && _verify_source_compatible_ok v up s) = true ↔
      ∃ sv, up.lookup s = some sv ∧
        (sv.cls = v.cls ∨ (v.cls = PyClass.list ∧
          (sv.cls = PyClass.list ∨ sv.cls = PyClass.folder))) := by
  cases h : up.lookup s with
  | none =>
    simp [_verify_source_exists_ok, _verify_source_compatible_ok, h]
  | some sv =>
    constructor
    · intro hok
      refine ⟨sv, rfl, ?_⟩
      have hc : _verify_source_compatible_ok v up s = true :=
        ((Bool.and_eq_true _ _).mp hok).2
      rw [_verify_source_compatible_ok, h] at hc
      simp only [_incompatible_type] at hc
      by_cases hv : v.cls = PyClass.list
      · rw [if_pos hv, Bool.not_not, Bool.or_eq_true, decide_eq_true_eq,
          decide_eq_true_eq] at hc
        exact Or.inr ⟨hv, hc⟩
      · rw [if_neg hv, Bool.not_eq_true', decide_eq_false_iff_not, not_not] at hc
        exact Or.inl hc
    · rintro ⟨sv', hsv', hcase⟩
      injection hsv' with he
      subst he
      rw [Bool.and_eq_true]
      refine ⟨by simp [_verify_source_exists_ok, h], ?_⟩
      rw [_verify_source_compatible_ok, h]
      simp only [_incompatible_type]
      by_cases hv : v.cls = PyClass.list
      · rw [if_pos hv]
        rcases hcase with h1 | ⟨-, h1 | h1⟩ <;> simp [h1, hv]
      · rw [if_neg hv]
        rcases hcase with h1 | ⟨h2, -⟩
        · simp [h1]
        · exact absurd h2 hv

/-- C3: in non-init mode, `Validator.validate_sources` succeeds iff the
variable is not a Folder or the source list is empty, every listed id
exists in the upstream track, and every source's class equals the
variable's class — except that a variable of class exactly `List` may also
source from a `Folder`. -/
theorem claim_C3 : ∀ (v : Variable) (upstream : Track) (sources : List String),
    validate_sources_noninit v upstream sources = true ↔
      ((isinstanceOf v.cls PyClass.folder = false ∨ sources = []) ∧
        ∀ s ∈ sources, ∃ sv, upstream.lookup s = some sv ∧
          (sv.cls = v.cls ∨ (v.cls = PyClass.list ∧
            (sv.cls = PyClass.list ∨ sv.cls = PyClass.folder)))) := by
  intro v up srcs
  rw [validate_sources_noninit, Bool.and_eq_true, folder_ok_iff, List.all_eq_true]
  constructor
  · rintro ⟨h1, h2⟩
    exact ⟨h1, fun s hs => (source_ok_iff v up s).mp (h2 s hs)⟩
  · rintro ⟨h1, h2⟩
    exact ⟨h1, fun s hs => (source_ok_iff v up s).mpr (h2 s hs)⟩

/-- Processing one source mapping into an accumulator with distinct keys:
raises exactly when a contributed key collides with the accumulator or with
an earlier key of the same source, and otherwise appends one translated
entry per key. -/
theorem process_source_value_eq (tr : Value → String → Value) (sid : String) :
    ∀ (sv acc : List (String × Value)), (acc.map Prod.fst).Nodup →
      process_source_value tr sid sv acc =
        if ((acc.map Prod.fst) ++ sv.map Prod.fst).Nodup
        then some (acc ++ sv.map (fun q => (q.1, tr q.2 sid)))
        else none := by
  intro sv
  induction sv with
  | nil =>
    intro acc hacc
    simp [process_source_value, hacc]
  | cons q rest ih =>
    intro acc hacc
    obtain ⟨k, item⟩ := q
    rw [process_source_value]
    by_cases hk : (acc.map Prod.fst).contains k = true
    · have hkmem : k ∈ acc.map Prod.fst := List.elem_iff.mp hk
      rw [if_pos hk]
      have hnd : ¬ ((acc.map Prod.fst) ++ ((k, item) :: rest).map Prod.fst).Nodup := by
        intro hnd
        rw [List.nodup_append] at hnd
        exact hnd.2.2 hkmem (by simp)
      rw [if_neg hnd]
    · have hkmem : k ∉ acc.map Prod.fst := fun hm => hk (List.elem_iff.mpr hm)
      rw [if_neg hk]
      have hacc2 : ((acc ++ [(k, tr item sid)]).map Prod.fst).Nodup := by
        simp only [List.map_append, List.map_cons, List.map_nil]
        rw [List.nodup_append]
        refine ⟨hacc, List.nodup_singleton _, ?_⟩
        intro a ha hb
        rw [List.mem_singleton] at hb
        subst hb
        exact hkmem ha
      rw [ih _ hacc2]
      have heq : ((acc ++ [(k, tr item sid)]).map Prod.fst) ++ rest.map Prod.fst
          = (acc.map Prod.fst) ++ ((k, item) :: rest).map Prod.fst := by
        simp
      rw [heq]
      by_cases hnd : ((acc.map Prod.fst) ++ ((k, item) :: rest).map Prod.fst).Nodup
      · rw [if_pos hnd, if_pos hnd]
        simp
      · rw [if_neg hnd, if_neg hnd]

/-- The full accumulation starting from an accumulator with distinct keys:
raises exactly when some key is contributed twice overall, else yields the
accumulator followed by every translated entry in contribution order. -/
theorem named_list_accumulate_eq (tr : Value → String → Value) :
    ∀ (sources : List (String × List (String × Value)))
      (acc : List (String × Value)), (acc.map Prod.fst).Nodup →
      named_list_accumulate tr sources acc =
        if ((acc.map Prod.fst) ++ allKeys sources).Nodup
        then some (acc ++ translatedAll tr sources)
        else none := by
  intro sources
  induction sources with
  | nil =>
    intro acc hacc
    simp [named_list_accumulate, allKeys, translatedAll, hacc]
  | cons sp rest ih =>
    intro acc hacc
    obtain ⟨sid, sv⟩ := sp
    have hkeys : allKeys ((sid, sv) :: rest) = sv.map Prod.fst ++ allKeys rest := by
      simp [allKeys]
    have htr : translatedAll tr ((sid, sv) :: rest)
        = sv.map (fun q => (q.1, tr q.2 sid)) ++ translatedAll tr rest := by
      simp [translatedAll]
    by_cases h1 : ((acc.map Prod.fst) ++ sv.map Prod.fst).Nodup
    · have hstep : named_list_accumulate tr ((sid, sv) :: rest) acc
          = named_list_accumulate tr rest (acc ++ sv.map (fun q => (q.1, tr q.2 sid))) := by
        rw [named_list_accumulate, process_source_value_eq tr sid sv acc hacc, if_pos h1]
      have hacc2 : (((acc ++ sv.map (fun q => (q.1, tr q.2 sid))).map Prod.fst)).Nodup := by
        simpa [Function.comp] using h1
      rw [hstep, ih _ hacc2]
      have heq : ((acc ++ sv.map (fun q => (q.1, tr q.2 sid))).map Prod.fst) ++ allKeys rest
          = (acc.map Prod.fst) ++ allKeys ((sid, sv) :: rest) := by
        simp [hkeys, Function.comp]
      rw [heq, htr]
      by_cases hnd : ((acc.map Prod.fst) ++ allKeys ((sid, sv) :: rest)).Nodup
      · rw [if_pos hnd, if_pos hnd]
        simp
      · rw [if_neg hnd, if_neg hnd]
    · have hstep : named_list_accumulate tr ((sid, sv) :: rest) acc = none := by
        rw [named_list_accumulate, process_source_value_eq tr sid sv acc hacc, if_neg h1]
      rw [hstep, if_neg]
      intro hnd
      rw [hkeys, ← List.append_assoc] at hnd
      exact h1 hnd.of_append_left

/-- C6: accumulating the translated elements of a NamedList target over its
contributing sources raises DuplicateKeyError exactly when two contributed
elements (across sources or within one source) share a key, and otherwise
produces exactly one translated entry per contributed key, in contribution
order. -/
theorem claim_C6 (tr : Value → String → Value)
    (sources : List (String × List (String × Value))) :
    named_list_accumulate tr sources [] =
      if (allKeys sources).Nodup then some (translatedAll tr sources) else none := by
  simpa using named_list_accumulate_eq tr sources [] (by simp)

/-- With `stop_at_list=False`, `check_ancestor` computes exactly the plain
ancestor-chain reachability predicate. -/
theorem check_ancestor_false_eq_reaches (t : Track) (selfId : String) :
    ∀ (fuel : Nat) (c : String),
      check_ancestor t selfId fuel c false = reaches t selfId fuel c := by
  intro fuel
  induction fuel with
  | zero => intro c; rfl
  | succ n ih =>
    intro c
    cases hc : t.lookup c with
    | none => simp [check_ancestor, reaches, hc]
    | some v =>
      cases hpar : v.parent with
      | none => simp [check_ancestor, reaches, hc, hpar]
      | some p => simp [check_ancestor, reaches, hc, hpar, ih]

/-- The track of the C1 counterexample: a root Folder `V`, under it a List
`L`, under it a Folder `F`, under it a Text variable `C`. -/
def trackC1 : Track := Track.mk
  [("V", ⟨PyClass.folder, "V", "v", 0, none, [], []⟩),
   ("L", ⟨PyClass.list, "L", "l", 0, some "V", [], []⟩),
   ("F", ⟨PyClass.folder, "F", "f", 0, some "L", [], []⟩),
   ("C", ⟨PyClass.text, "C", "c", 0, some "F", [], []⟩)]

/-- C1 (counterexample): with the List `L` strictly between `C` and `V` (but
not `C`'s immediate parent), `check_ancestor("C", stop_at_list=True)` on `V`
returns `True`, while the claim's predicate — the chain reaches `V` without
passing through any List or NamedList — is false: the recursion drops the
`stop_at_list` flag after the first step. -/
theorem claim_C1_counterexample :
    check_ancestor trackC1 "V" 10 "C" true = some true ∧
      reaches_no_list trackC1 "V" 10 "C" = some false := by
  decide

/-- C1 (amended): `check_ancestor(C, stop_at_list=True)` returns true iff
`C`'s *immediate* parent exists, is present in the track and is not a
GenericList, and the plain parent chain from `C` reaches this variable's id
— GenericList variables deeper in the chain do not stop the search. -/
theorem claim_C1_amended (t : Track) (selfId : String) (fuel : Nat) (c : String) :
    check_ancestor t selfId (fuel + 1) c true = some true ↔
      ∃ v p pv, t.lookup c = some v ∧ v.parent = some p ∧ t.lookup p = some pv ∧
        isinstanceOf pv.cls PyClass.genericList = false ∧
        reaches t selfId (fuel + 1) c = some true := by
  cases hc : t.lookup c with
  | none => simp [check_ancestor, hc]
  | some v =>
    cases hpar : v.parent with
    | none => simp [check_ancestor, hc, hpar]
    | some p =>
      cases hp : t.lookup p with
      | none => simp [check_ancestor, hc, hpar, hp]
      | some pv =>
        by_cases hl : isinstanceOf pv.cls PyClass.genericList = true
        · simp [check_ancestor, hc, hpar, hp, hl]
        · by_cases hps : p = selfId
          · subst hps
            simp [check_ancestor, reaches, hc, hpar, hp, hl]
          · simp [check_ancestor, reaches, hc, hpar, hp, hl, hps,
              check_ancestor_false_eq_reaches]

/-- `find?` by key commutes with a key-preserving map of the entries. -/
theorem find_map_presv (f : String × Variable → String × Variable)
    (hf : ∀ p, (f p).1 = p.1) (wid : String) :
    ∀ l : List (String × Variable),
      List.find? (fun p => p.1 = wid) (l.map f)
        = (List.find? (fun p => p.1 = wid) l).map f := by
  intro l
  induction l with
  | nil => rfl
  | cons a rest ih =>
    by_cases hk : a.1 = wid
    · have hfk : (f a).1 = wid := by rw [hf, hk]
      simp [List.find?_cons, hk, hfk]
    · have hfk : ¬(f a).1 = wid := by rw [hf]; exact hk
      simp [List.find?_cons, hk, hfk, ih]

/-- Lookup in a track whose entries were rewritten by a key-preserving map:
the value found is the rewritten original value. -/
theorem lookup_map_presv (f : String × Variable → String × Variable)
    (hf : ∀ p, (f p).1 = p.1) (t : Track) (wid : String) :
    (Track.mk (t.vars.map f)).lookup wid
      = (t.lookup wid).map (fun v => (f (wid, v)).2) := by
  simp only [Track.lookup, find_map_presv f hf wid]
  cases hf2 : List.find? (fun p => p.1 = wid) t.vars with
  | none => rfl
  | some q =>
    have hq : q.1 = wid := by simpa using List.find?_some hf2
    simp only [Option.map_some']
    rw [← hq]

/-- Every variable looked up in an invalidated track has an empty memo
cache. -/
theorem invalidate_cache_lookup (t : Track) (wid : String) (w : Variable) :
    (Track.invalidate_variables_cache t).lookup wid = some w → w.cache = [] := by
  intro hw
  rw [Track.invalidate_variables_cache,
    lookup_map_presv (fun p => (p.1, { p.2 with cache := [] })) (fun p => rfl) t wid] at hw
  cases hlk : t.lookup wid with
  | none => rw [hlk] at hw; exact absurd hw (by simp)
  | some u =>
    rw [hlk] at hw
    injection hw with he
    rw [← he]

/-- The track of the C2 counterexample: two unrelated sibling Folders `A`
and `B`, each with a memoized `absolute_path`. -/
def trackC2 : Track := Track.mk
  [("A", ⟨PyClass.folder, "A", "a", 0, none, [], ["absolute_path"]⟩),
   ("B", ⟨PyClass.folder, "B", "b", 1, none, [], ["absolute_path"]⟩)]

/-- The track after renaming `A` to `"c"`: both variables' caches are
cleared, `B`'s included. -/
def trackC2res : Track := Track.mk
  [("A", ⟨PyClass.folder, "A", "c", 0, none, [], []⟩),
   ("B", ⟨PyClass.folder, "B", "b", 1, none, [], []⟩)]

/-- C2 (counterexample): before renaming `A`, the unrelated sibling `B` has
a memoized result; after the rename — which routes through
`track.invalidate_variables_cache()`, an operation receiving no variable
identity — `B`'s cache is empty too, where the claim says it must still be
cached and unchanged. -/
theorem claim_C2_counterexample :
    ((trackC2.lookup "B").map Variable.cache = some ["absolute_path"]) ∧
      (trackC2.set_name "A" "c" = some trackC2res) ∧
      ((trackC2res.lookup "B").map Variable.cache = some []) := by
  refine ⟨rfl, ?_, rfl⟩
  decide

/-- C2 (amended): a successful rename of any variable invalidates the
memoized derived properties of *every* variable in the track — the renamed
variable, its descendants, and unrelated siblings alike. -/
theorem claim_C2_amended (t : Track) (vid nm : String) (t2 : Track)
    (hset : Track.set_name t vid nm = some t2) :
    ∀ (wid : String) (w : Variable), t2.lookup wid = some w → w.cache = [] := by
  intro wid w hw
  rw [Track.set_name] at hset
  cases hv : t.lookup vid with
  | none =>
    rw [hv] at hset
    exact absurd hset (by simp)
  | some v =>
    rw [hv] at hset
    simp only [] at hset
    by_cases hval : validate_name_ok t v nm = true
    · rw [if_pos hval] at hset
      injection hset with ht2
      subst ht2
      exact invalidate_cache_lookup _ wid w hw
    · rw [if_neg hval] at hset
      exact absurd hset (by simp)

/-- C2 (witness): the amended theorem applied to the concrete rename of the
counterexample track. -/
theorem claim_C2_amended_witness :
    trackC2.set_name "A" "c" = some trackC2res ∧
      trackC2res.lookup "B" = some ⟨PyClass.folder, "B", "b", 1, none, [], []⟩ ∧
      (⟨PyClass.folder, "B", "b", 1, none, [], []⟩ : Variable).cache = [] :=
  ⟨by decide, by decide,
    claim_C2_amended trackC2 "A" "c" trackC2res (by decide) "B" _ (by decide)⟩

/-- Splitting a filter count by a second predicate. -/
theorem length_filter_split (P Q : String × Variable → Bool) :
    ∀ l : List (String × Variable),
      (l.filter P).length = (l.filter (fun a => P a && Q a)).length
        + (l.filter (fun a => P a && !Q a)).length := by
  intro l
  induction l with
  | nil => rfl
  | cons a rest ih =>
    by_cases hp : P a = true
    · by_cases hq : Q a = true <;>
        simp [List.filter_cons, hp, hq, ih] <;> omega
    · simp [List.filter_cons, hp, ih]

/-- Filtering after a map that preserves the filter predicate. -/
theorem filter_map_of_pred_stable (f : String × Variable → String × Variable)
    (q : String × Variable → Bool) (hq : ∀ x, q (f x) = q x) :
    ∀ l : List (String × Variable), (l.map f).filter q = (l.filter q).map f := by
  intro l
  induction l with
  | nil => rfl
  | cons a rest ih =>
    by_cases hqa : q a = true
    · simp [List.filter_cons, hq, hqa, ih]
    · simp [List.filter_cons, hq, hqa, ih]

/-- The sort orders of every sibling of `selfId` other than `selfId` itself
(entries of the track with the given parent). -/
def otherSibOrders (t : Track) (selfId : String) (par : Option String) : List Int :=
  ((t.vars.filter (fun p => p.1 ≠ selfId ∧ p.2.parent = par)).map
    (fun p => p.2.sort_order))

/-- Rewriting each non-self sibling's sort order through `g` commutes with
collecting the sibling orders. -/
theorem otherSibOrders_map_update (t : Track) (vid : String) (par : Option String)
    (g : Int → Int) :
    otherSibOrders (Track.mk (t.vars.map (fun p =>
        if p.1 ≠ vid ∧ p.2.parent = par then
          (p.1, { p.2 with sort_order := g p.2.sort_order })
        else p))) vid par
      = (otherSibOrders t vid par).map g := by
  unfold otherSibOrders
  rw [filter_map_of_pred_stable _ _ ?hq, List.map_map, List.map_map]
  case hq =>
    intro x
    by_cases hc : x.1 ≠ vid ∧ x.2.parent = par
    · simp [hc]
    · simp [if_neg hc]
  apply List.map_congr_left
  intro p hp
  rw [List.mem_filter] at hp
  have hc : p.1 ≠ vid ∧ p.2.parent = par := by simpa using hp.2
  simp [hc]

/-- Inserting `kk` while shifting the tail of `0..n-1` that is `≥ kk` up by
one yields a permutation of `0..n`. -/
theorem shift_range_perm (kk : Nat) :
    ∀ n : Nat, kk ≤ n →
      (kk :: (List.range n).map (fun i => if kk ≤ i then i + 1 else i)).Perm
        (List.range (n + 1)) := by
  intro n
  induction n with
  | zero =>
    intro hk
    have h0 : kk = 0 := Nat.le_zero.mp hk
    subst h0
    decide
  | succ n ih =>
    intro hk
    by_cases hkn : kk ≤ n
    · have he : kk :: ((List.range (n + 1)).map (fun i => if kk ≤ i then i + 1 else i))
          = (kk :: (List.range n).map (fun i => if kk ≤ i then i + 1 else i)) ++ [n + 1] := by
        rw [List.range_succ]
        simp [hkn]
      rw [he, show List.range (n + 1 + 1) = List.range (n + 1) ++ [n + 1] from List.range_succ (n + 1)]
      exact (ih hkn).append_right _
    · have hkk : kk = n + 1 := by omega
      subst hkk
      have hmap : (List.range (n + 1)).map (fun i => if n + 1 ≤ i then i + 1 else i)
          = List.range (n + 1) := by
        have hid : ∀ a ∈ List.range (n + 1), (if n + 1 ≤ a then a + 1 else a) = a := by
          intro a ha
          rw [List.mem_range] at ha
          rw [if_neg (by omega)]
        rw [List.map_congr_left hid]
        simp
      rw [hmap, show List.range (n + 1 + 1) = List.range (n + 1) ++ [n + 1] from List.range_succ (n + 1)]
      exact (List.perm_append_singleton _ _).symm

/-- The integer version of `shift_range_perm`, over the cast image of
`0..n-1`. -/
theorem shift_range_perm_int (n : Nat) (k : Int) (hk0 : 0 ≤ k) (hkn : k ≤ (n : Int)) :
    (k :: (((List.range n).map (fun i : Nat => (i : Int))).map
        (fun so => if k ≤ so then so + 1 else so))).Perm
      ((List.range (n + 1)).map (fun i : Nat => (i : Int))) := by
  lift k to ℕ using hk0 with kk
  have hkkn : kk ≤ n := by exact_mod_cast hkn
  have hmap : ((List.range n).map (fun i : Nat => (i : Int))).map
        (fun so => if (kk : Int) ≤ so then so + 1 else so)
      = ((List.range n).map (fun i => if kk ≤ i then i + 1 else i)).map
        (fun i : Nat => (i : Int)) := by
    rw [List.map_map, List.map_map]
    apply List.map_congr_left
    intro a _
    by_cases h : kk ≤ a
    · have h2 : (kk : Int) ≤ (a : Int) := by exact_mod_cast h
      simp [h, h2]
    · have h2 : ¬((kk : Int) ≤ (a : Int)) := by exact_mod_cast h
      simp [h, h2]
  rw [hmap]
  simpa using (shift_range_perm kk n hkkn).map (fun i : Nat => (i : Int))

/-- C4: when the existing siblings of `vid` carry sort orders forming a
permutation of `0..n-1`, inserting `vid` at sort order `k` via
`update_sort_order` with no prior position increments exactly the siblings
with order `≥ k` and leaves the rest unchanged, so the resulting orders
(including `vid` at `k`) are exactly `0..n`. -/
theorem claim_C4 (t : Track) (vid : String) (v : Variable) (n : Nat) (k : Int)
    (hv : t.lookup vid = some v)
    (hvk : v.sort_order = k)
    (hperm : (otherSibOrders t vid v.parent).Perm
      ((List.range n).map (fun i : Nat => (i : Int))))
    (hk0 : 0 ≤ k) (hkn : k ≤ (n : Int)) :
    ∃ t', Track.update_sort_order t vid none (some k) = some t' ∧
      otherSibOrders t' vid v.parent =
        (otherSibOrders t vid v.parent).map
          (fun so => if k ≤ so then so + 1 else so) ∧
      (v.sort_order :: otherSibOrders t' vid v.parent).Perm
        ((List.range (n + 1)).map (fun i : Nat => (i : Int))) := by
  have hlen : (otherSibOrders t vid v.parent).length = n := by
    rw [hperm.length_eq]
    simp
  -- the entry found by the lookup is a parent-matching entry with key vid
  have hentry : ∃ q : String × Variable, q ∈ t.vars ∧ q.1 = vid ∧ q.2 = v := by
    rw [Track.lookup] at hv
    cases hf : t.vars.find? (fun p => p.1 = vid) with
    | none => rw [hf] at hv; exact absurd hv (by simp)
    | some q =>
      rw [hf] at hv
      refine ⟨q, List.mem_of_find?_eq_some hf, by simpa using List.find?_some hf, ?_⟩
      simpa using hv
  obtain ⟨q, hqmem, hq1, hq2⟩ := hentry
  -- the sibling count (which includes vid itself) is at least n + 1
  have hcount : n + 1 ≤ (t.siblingIds v).length := by
    have hsplit := length_filter_split (fun p => decide (p.2.parent = v.parent))
      (fun p => decide (p.1 = vid)) t.vars
    have hsib : (t.siblingIds v).length
        = (t.vars.filter (fun p => decide (p.2.parent = v.parent))).length := by
      rw [Track.siblingIds, List.length_map]
    have hother : (t.vars.filter (fun p =>
          decide (p.2.parent = v.parent) && !(decide (p.1 = vid))))
        = t.vars.filter (fun p => p.1 ≠ vid ∧ p.2.parent = v.parent) := by
      apply List.filter_congr
      intro p _
      by_cases h1 : p.1 = vid <;> by_cases h2 : p.2.parent = v.parent <;>
        simp [h1, h2]
    have hlen2 : (t.vars.filter (fun p =>
          decide (p.2.parent = v.parent) && !(decide (p.1 = vid)))).length = n := by
      rw [hother]
      have := hlen
      rw [otherSibOrders, List.length_map] at this
      exact this
    have hmemq : q ∈ t.vars.filter (fun p =>
        decide (p.2.parent = v.parent) && decide (p.1 = vid)) := by
      rw [List.mem_filter]
      exact ⟨hqmem, by simp [hq1, hq2]⟩
    have hpos : 0 < (t.vars.filter (fun p =>
        decide (p.2.parent = v.parent) && decide (p.1 = vid))).length := by
      rcases hnil : t.vars.filter (fun p =>
          decide (p.2.parent = v.parent) && decide (p.1 = vid)) with _ | _
      · rw [hnil] at hmemq
        simp at hmemq
      · rw [hnil]
        simp
    rw [hsib, hsplit]
    omega
  -- every existing sibling order is below the defaulted old bound
  have hbound : ∀ so ∈ otherSibOrders t vid v.parent,
      so < ((t.siblingIds v).length : Int) + 1 := by
    intro so hso
    have hso2 : so ∈ (List.range n).map (fun i : Nat => (i : Int)) :=
      hperm.mem_iff.mp hso
    rw [List.mem_map] at hso2
    obtain ⟨i, hi, rfl⟩ := hso2
    rw [List.mem_range] at hi
    have h1 : (i : Int) < (n : Int) := by exact_mod_cast hi
    have h2 : (n : Int) ≤ ((t.siblingIds v).length : Int) := by
      exact_mod_cast Nat.le_of_succ_le hcount
    omega
  have hB : otherSibOrders (Track.mk (t.vars.map (fun p =>
        if p.1 ≠ vid ∧ p.2.parent = v.parent then
          (p.1, { p.2 with sort_order :=
            p.2.sort_order + (if k ≤ p.2.sort_order then 1 else 0)
              - (if ((t.siblingIds v).length : Int) + 1 ≤ p.2.sort_order
                  then 1 else 0) })
        else p))) vid v.parent
      = (otherSibOrders t vid v.parent).map
          (fun so => if k ≤ so then so + 1 else so) := by
    rw [otherSibOrders_map_update t vid v.parent (fun so =>
      so + (if k ≤ so then 1 else 0)
        - (if ((t.siblingIds v).length : Int) + 1 ≤ so then 1 else 0))]
    apply List.map_congr_left
    intro so hso
    have h1 := hbound so hso
    rw [if_neg (show ¬(((t.siblingIds v).length : Int) + 1 ≤ so) by omega)]
    by_cases h2 : k ≤ so <;> simp [h2]
  refine ⟨_, ?_, hB, ?_⟩
  · simp only [Track.update_sort_order, hv, Option.getD_some, Option.getD_none]
  · rw [hB, hvk]
    exact ((hperm.map _).cons k).trans (shift_range_perm_int n k hk0 hkn)

/-- The track of the C4 witness: a Folder `P` with children `A` (order 0)
and `B` (order 1), plus the newly added `V` at order 1 awaiting
renumbering. -/
def trackC4 : Track := Track.mk
  [("P", ⟨PyClass.folder, "P", "p", 0, none, [], []⟩),
   ("A", ⟨PyClass.text, "A", "a", 0, some "P", [], []⟩),
   ("B", ⟨PyClass.text, "B", "b", 1, some "P", [], []⟩),
   ("V", ⟨PyClass.text, "V", "v", 1, some "P", [], []⟩)]

/-- C4 (witness): the theorem applied to the concrete insertion of `V` at
sort order 1 among two existing siblings. -/
theorem claim_C4_witness :
    ∃ t', Track.update_sort_order trackC4 "V" none (some 1) = some t' ∧
      otherSibOrders t' "V" (some "P") =
        (otherSibOrders trackC4 "V" (some "P")).map
          (fun so => if (1 : Int) ≤ so then so + 1 else so) ∧
      ((1 : Int) :: otherSibOrders t' "V" (some "P")).Perm
        ((List.range 3).map (fun i : Nat => (i : Int))) := by
  have h := claim_C4 trackC4 "V" ⟨PyClass.text, "V", "v", 1, some "P", [], []⟩
    2 1 (by decide) rfl ?_ (by decide) (by decide)
  · exact h
  · have he : otherSibOrders trackC4 "V" (some "P") = [0, 1] := by decide
    rw [he]
    have he2 : (List.range 2).map (fun i : Nat => (i : Int)) = [0, 1] := by decide
    rw [he2]

/-- The document walk fails exactly under the specification's failure
condition: a missing key or a non-mapping intermediate. -/
theorem valueWalk_none_iff : ∀ (p : List String) (v : Value),
    valueWalk v p = none ↔ WalkFails v p := by
  intro p
  induction p with
  | nil =>
    intro v
    constructor
    · intro h
      exact absurd h (by simp [valueWalk])
    · intro h
      cases h
  | cons n rest ih =>
    intro v
    cases v with
    | vdict es =>
      cases hg : dictGet es n with
      | none =>
        simp only [valueWalk, hg]
        exact ⟨fun _ => WalkFails.missingKey hg, fun _ => trivial⟩
      | some w =>
        simp only [valueWalk, hg]
        constructor
        · intro h
          exact WalkFails.deeper hg (ih w |>.mp h)
        · intro h
          cases h with
          | missingKey hg2 => rw [hg] at hg2; exact absurd hg2 (by simp)
          | notMapping hne => exact absurd rfl (hne es)
          | deeper hg2 hw =>
            rw [hg] at hg2
            injection hg2 with he
            subst he
            exact (ih w).mpr hw
    | vnum x =>
      simp only [valueWalk]
      exact ⟨fun _ => WalkFails.notMapping (by intro es h; cases h), fun _ => trivial⟩
    | vstr x =>
      simp only [valueWalk]
      exact ⟨fun _ => WalkFails.notMapping (by intro es h; cases h), fun _ => trivial⟩
    | vbool x =>
      simp only [valueWalk]
      exact ⟨fun _ => WalkFails.notMapping (by intro es h; cases h), fun _ => trivial⟩
    | vnull =>
      simp only [valueWalk]
      exact ⟨fun _ => WalkFails.notMapping (by intro es h; cases h), fun _ => trivial⟩

/-- The document walk succeeds with `u` exactly when `u` is the value stored
at the path. -/
theorem valueWalk_some_iff : ∀ (p : List String) (v u : Value),
    valueWalk v p = some u ↔ StoredAt v p u := by
  intro p
  induction p with
  | nil =>
    intro v u
    simp only [valueWalk, Option.some.injEq]
    constructor
    · intro h
      rw [h]
      exact StoredAt.nil u
    · intro h
      cases h
      rfl
  | cons n rest ih =>
    intro v u
    cases v with
    | vdict es =>
      cases hg : dictGet es n with
      | none =>
        simp only [valueWalk, hg]
        constructor
        · intro h
          exact absurd h (by simp)
        · intro h
          cases h with
          | cons hg2 _ => rw [hg] at hg2; exact absurd hg2 (by simp)
      | some w =>
        simp only [valueWalk, hg]
        constructor
        · intro h
          exact StoredAt.cons hg ((ih w u).mp h)
        · intro h
          cases h with
          | cons hg2 hs =>
            rw [hg] at hg2
            injection hg2 with he
            subst he
            exact (ih w u).mpr hs
    | vnum x =>
      simp only [valueWalk]
      exact ⟨fun h => absurd h (by simp), fun h => by cases h⟩
    | vstr x =>
      simp only [valueWalk]
      exact ⟨fun h => absurd h (by simp), fun h => by cases h⟩
    | vbool x =>
      simp only [valueWalk]
      exact ⟨fun h => absurd h (by simp), fun h => by cases h⟩
    | vnull =>
      simp only [valueWalk]
      exact ⟨fun h => absurd h (by simp), fun h => by cases h⟩

/-- C5: for a variable whose ancestor chain resolves to `names`,
`variable_value` raises SourceNotFound exactly when the document is empty
or the reversed name chain hits a missing key or a non-mapping
intermediate; otherwise it returns exactly the value stored at that path
(the embedding is pure, so the document is never mutated). -/
theorem claim_C5 (t : Track) (fuel : Nat) (doc : List (String × Value))
    (vid : String) (names : List String)
    (hn : ancestorNames t fuel vid = some names) :
    ((variable_value t fuel doc vid = some none) ↔
      (doc = [] ∨ WalkFails (.vdict doc) names.reverse)) ∧
    (∀ u, (variable_value t fuel doc vid = some (some u)) ↔
      (doc ≠ [] ∧ StoredAt (.vdict doc) names.reverse u)) := by
  rw [variable_value, hn]
  rcases doc with _ | ⟨e, es⟩
  · constructor
    · simp
    · intro u
      simp only [List.length_nil, if_pos rfl]
      constructor
      · intro h
        exact absurd h (by simp)
      · rintro ⟨h, -⟩
        exact absurd rfl h
  · have hne : ((e :: es).length = 0) = False := by simp
    simp only [hne, if_false, Option.some.injEq]
    constructor
    · rw [valueWalk_none_iff]
      constructor
      · intro h
        exact Or.inr h
      · rintro (h | h)
        · exact absurd h (by simp)
        · exact h
    · intro u
      rw [valueWalk_some_iff]
      constructor
      · intro h
        exact ⟨by simp, h⟩
      · rintro ⟨-, h⟩
        exact h

/-- The track of the C5 witness: a single root Text variable named `"a"`. -/
def trackC5 : Track := Track.mk
  [("X", ⟨PyClass.text, "X", "a", 0, none, [], []⟩)]

/-- C5 (witness): the theorem applied to the one-variable track and the
document `{a: 5}`. -/
theorem claim_C5_witness :
    ancestorNames trackC5 3 "X" = some ["a"] ∧
      ((variable_value trackC5 3 [("a", Value.vnum 5)] "X"
          = some (some (Value.vnum 5))) ↔
        ([("a", Value.vnum 5)] ≠ [] ∧
          StoredAt (.vdict [("a", Value.vnum 5)]) (["a"].reverse)
            (Value.vnum 5))) :=
  ⟨by decide, (claim_C5 trackC5 3 [("a", Value.vnum 5)] "X" ["a"]
    (by decide)).2 (Value.vnum 5)⟩

/-- A found decimal block start brackets the codepoint. -/
theorem ndBlockStart_bounds (n s : Nat) (h : ndBlockStart n = some s) :
    s ≤ n ∧ n < s + 10 := by
  rw [ndBlockStart] at h
  have h2 := List.find?_some h
  simp only [Bool.and_eq_true, decide_eq_true_eq] at h2
  exact h2

/-- A decimal digit's value is at most 9. -/
theorem decimalVal_le (c : Char) (h : isDecimalChar c = true) :
    decimalVal c ≤ 9 := by
  rw [isDecimalChar] at h
  cases hs : ndBlockStart c.toNat with
  | none => rw [hs] at h; exact absurd h (by simp)
  | some s =>
    obtain ⟨h1, h2⟩ := ndBlockStart_bounds _ _ hs
    simp only [decimalVal, hs]
    omega

/-- An ASCII `1`–`9` is a decimal digit of value 1–9. -/
theorem ascii19_facts (c : Char) (h : ascii19 c = true) :
    isDecimalChar c = true ∧ 1 ≤ decimalVal c ∧ decimalVal c ≤ 9 := by
  rw [ascii19, Bool.and_eq_true, decide_eq_true_eq, decide_eq_true_eq] at h
  obtain ⟨h1, h2⟩ := h
  have hblock : ndBlockStart c.toNat = some 48 := by
    rw [ndBlockStart, ndStarts]
    apply List.find?_cons_of_pos
    simp only [Bool.and_eq_true, decide_eq_true_eq]
    omega
  refine ⟨?_, ?_, ?_⟩
  · rw [isDecimalChar, hblock]
    rfl
  · simp only [decimalVal, hblock]
    omega
  · simp only [decimalVal, hblock]
    omega

/-- The month shape of the `_strptime` pattern forces a month value
1–12. -/
theorem month_bounds (e f : Char) (h : monthCharsOk e f = true) :
    1 ≤ 10 * decimalVal e + decimalVal f ∧
      10 * decimalVal e + decimalVal f ≤ 12 := by
  rw [monthCharsOk] at h
  simp only [Bool.or_eq_true, Bool.and_eq_true, decide_eq_true_eq] at h
  rcases h with ⟨he, hf⟩ | ⟨he, hf⟩
  · subst he
    rcases hf with (hf | hf) | hf <;> subst hf <;> decide
  · subst he
    obtain ⟨-, hf1, hf2⟩ := ascii19_facts f hf
    have hd0 : decimalVal '0' = 0 := by decide
    rw [hd0]
    omega

/-- The day shape of the `_strptime` pattern forces a day value 1–31. -/
theorem day_bounds (g i : Char) (h : dayCharsOk g i = true) :
    1 ≤ dayVal g i ∧ dayVal g i ≤ 31 := by
  rw [dayCharsOk] at h
  simp only [Bool.or_eq_true, Bool.and_eq_true, decide_eq_true_eq] at h
  rcases h with ((⟨hg, hi⟩ | ⟨hg, hi⟩) | ⟨hg, hi⟩) | ⟨hg, hi⟩
  · subst hg
    rcases hi with hi | hi <;> subst hi <;> decide
  · have hle := decimalVal_le i hi
    rcases hg with hg | hg <;> subst hg
    · rw [dayVal, if_neg (by decide)]
      have h1 : decimalVal '1' = 1 := by decide
      rw [h1]
      omega
    · rw [dayVal, if_neg (by decide)]
      have h2 : decimalVal '2' = 2 := by decide
      rw [h2]
      omega
  · subst hg
    obtain ⟨-, hi1, hi2⟩ := ascii19_facts i hi
    rw [dayVal, if_neg (by decide)]
    have hd0 : decimalVal '0' = 0 := by decide
    rw [hd0]
    omega
  · subst hg
    obtain ⟨-, hi1, hi2⟩ := ascii19_facts i hi
    rw [dayVal, if_pos rfl]
    omega

/-- The `%Y-%m-%d` check accepts exactly the decimal-digit spellings of
calendar-valid dates (year 1–9999, month 1–12, day within the month's true
length). -/
theorem strptime_iff : ∀ cs : List Char,
    strptime_Ymd_ok cs = true ↔ IsStrictDate cs := by
  intro cs
  rcases cs with _ | ⟨a, _ | ⟨b, _ | ⟨c, _ | ⟨d, _ | ⟨s1, _ | ⟨e, _ | ⟨f, _ |
    ⟨s2, _ | ⟨g, _ | ⟨i, _ | ⟨x, rest⟩⟩⟩⟩⟩⟩⟩⟩⟩⟩⟩
  all_goals try {
    constructor
    · intro h
      simp [strptime_Ymd_ok] at h
    · rintro ⟨_, _, _, _, _, _, _, _, _, _, _, hcs, -⟩
      simp at hcs }
  constructor
  · intro h
    simp only [strptime_Ymd_ok, List.all_cons, List.all_nil,
      Bool.and_eq_true, decide_eq_true_eq] at h
    obtain ⟨⟨⟨⟨⟨hs1, hs2⟩, ha, hb, hc', hd', -⟩, hmo⟩, hdo⟩,
      ⟨⟨⟨hy1, hm1⟩, hm2⟩, hdd1⟩, hdd2⟩ := h
    have b1 := decimalVal_le a ha
    have b2 := decimalVal_le b hb
    have b3 := decimalVal_le c hc'
    have b4 := decimalVal_le d hd'
    subst hs1
    subst hs2
    exact ⟨1000 * decimalVal a + 100 * decimalVal b + 10 * decimalVal c
        + decimalVal d, 10 * decimalVal e + decimalVal f, dayVal g i,
      a, b, c, d, e, f, g, i, rfl, ha, hb, hc', hd', hmo, hdo, rfl, rfl,
      rfl, hy1, by omega, hm1, hm2, hdd1, hdd2⟩
  · rintro ⟨y, m, dd, c1, c2, c3, c4, c6, c7, c9, c10, hcs, hq1, hq2, hq3,
      hq4, hmo, hdo, hy, hm, hdv, hy1, hy2, hm1, hm2, hdd1, hdd2⟩
    simp only [List.cons.injEq, and_true] at hcs
    obtain ⟨e1, e2, e3, e4, e5, e6, e7, e8, e9, e10⟩ := hcs
    subst e1
    subst e2
    subst e3
    subst e4
    subst e5
    subst e6
    subst e7
    subst e8
    subst e9
    subst e10
    subst hy
    subst hm
    subst hdv
    simp only [strptime_Ymd_ok, List.all_cons, List.all_nil,
      Bool.and_eq_true, decide_eq_true_eq]
    exact ⟨⟨⟨⟨⟨by trivial, by trivial⟩, hq1, hq2, hq3, hq4, trivial⟩, hmo⟩,
      hdo⟩, ⟨⟨⟨hy1, hm1⟩, hm2⟩, hdd1⟩, hdd2⟩

/-- C8: the Date caster maps null, the empty string and the literal
`"000000"` to absence; maps every other 6-character decimal numeral (six
Unicode decimal digits) to its first four characters, a dash, its last two
characters and `"-01"`; for a string of length at least 10 returns its
first 10 characters exactly when they spell a strict `YYYY-MM-DD` calendar
date in the digit shapes `strptime` accepts, and raises CastError
otherwise; and raises CastError on every other input — in particular
`"202403"` yields `"2024-03-01"`, `"000000"` yields absence, and `"bad"`
fails. -/
theorem claim_C8 :
    (Date_cast none = some none ∧ Date_cast (some "") = some none ∧
      Date_cast (some "000000") = some none) ∧
    (∀ s : String, s ≠ "000000" → s.length = 6 →
      s.data.all isDecimalChar = true →
      Date_cast (some s) = some (some ((s.take 4) ++ "-" ++ (s.drop 4) ++ "-01"))) ∧
    (∀ s : String, 10 ≤ s.length →
      (IsStrictDate (s.data.take 10) →
        Date_cast (some s) = some (some (s.take 10))) ∧
      (¬IsStrictDate (s.data.take 10) → Date_cast (some s) = none)) ∧
    (∀ s : String, s ≠ "" → s ≠ "000000" →
      ¬(s.length = 6 ∧ s.data.all isDecimalChar = true) → s.length < 10 →
      Date_cast (some s) = none) ∧
    (Date_cast (some "202403") = some (some "2024-03-01") ∧
      Date_cast (some "bad") = none) := by
  refine ⟨⟨rfl, by decide, by decide⟩, ?_, ?_, ?_, by decide, by decide⟩
  · intro s hs6 hlen hdig
    have hne : ¬(s = "" ∨ s = "000000") := by
      rintro (h | h)
      · rw [h] at hlen
        exact absurd hlen (by decide)
      · exact hs6 h
    rw [Date_cast, if_neg hne, if_pos (by simp [hlen, hdig])]
  · intro s hlen
    have hne : ¬(s = "" ∨ s = "000000") := by
      rintro (h | h) <;> rw [h] at hlen <;> exact absurd hlen (by decide)
    have h6 : (s.length = 6 && s.data.all isDecimalChar) = false := by
      simp only [Bool.and_eq_false_iff, decide_eq_false_iff_not]
      left
      omega
    constructor
    · intro hd
      rw [Date_cast, if_neg hne, if_neg (by simp [h6]), if_pos hlen,
        if_pos ((strptime_iff _).mpr hd)]
    · intro hd
      rw [Date_cast, if_neg hne, if_neg (by simp [h6]), if_pos hlen,
        if_neg (fun hh => hd ((strptime_iff _).mp hh))]
  · intro s hs0 hs6 hsd hlen
    have hne : ¬(s = "" ∨ s = "000000") := by
      rintro (h | h)
      · exact hs0 h
      · exact hs6 h
    have h6 : (s.length = 6 && s.data.all isDecimalChar) = false := by
      rcases Bool.eq_false_or_eq_true (s.length = 6 && s.data.all isDecimalChar) with h | h
      · rw [Bool.and_eq_true, decide_eq_true_eq] at h
        exact absurd ⟨h.1, h.2⟩ hsd
      · exact h
    rw [Date_cast, if_neg hne, if_neg (by simp [h6]), if_neg (by omega)]

/-- C8 (witness): the theorem's 6-digit clause at `"202512"` and its
strict-date clause at `"2024-03-01"`. -/
theorem claim_C8_witness :
    Date_cast (some "202512") = some (some ("202512".take 4 ++ "-" ++
        "202512".drop 4 ++ "-01")) ∧
      Date_cast (some "2024-03-01") = some (some ("2024-03-01".take 10)) :=
  ⟨claim_C8.2.1 "202512" (by decide) (by decide) (by decide),
    (claim_C8.2.2.1 "2024-03-01" (by decide)).1
      ((strptime_iff ("2024-03-01".data.take 10)).mp (by decide))⟩

/-- Setting a key makes it retrievable. -/
theorem dictGet_dictSet_self : ∀ (es : List (String × Value)) (k : String)
    (x : Value), dictGet (dictSet es k x) k = some x := by
  intro es k x
  induction es with
  | nil => simp [dictSet, dictGet]
  | cons p rest ih =>
    by_cases hk : p.1 = k
    · simp [dictSet, dictGet, hk]
    · simp [dictSet, dictGet, hk, ih]

/-- Setting a key leaves every other key's value unchanged. -/
theorem dictGet_dictSet_other : ∀ (es : List (String × Value)) (k k' : String)
    (x : Value), k ≠ k' → dictGet (dictSet es k x) k' = dictGet es k' := by
  intro es k k' x hkk
  induction es with
  | nil => simp [dictSet, dictGet, hkk]
  | cons p rest ih =>
    by_cases hk : p.1 = k
    · simp only [dictSet, if_pos hk, dictGet]
      rw [if_neg (by rw [hk]; exact hkk), if_neg (by rw [hk]; exact hkk)]
    · simp only [dictSet, if_neg hk, dictGet]
      by_cases hk' : p.1 = k'
      · rw [if_pos hk', if_pos hk']
      · rw [if_neg hk', if_neg hk', ih]

/-- `put` into an empty mapping always succeeds. -/
theorem putOk_empty : ∀ rest : List String, putOk (Value.vdict []) rest = true := by
  intro rest
  cases rest with
  | nil => rfl
  | cons k r => simp [putOk, dictGet]

/-- A `put` along a path whose existing values are all mappings succeeds. -/
theorem ndPut_ok : ∀ (path : List String) (v x : Value),
    putOk v path = true → ∃ v', ndPut v path x = some v' := by
  intro path
  induction path with
  | nil => exact fun v x _ => ⟨x, by cases v <;> rfl⟩
  | cons k rest ih =>
    intro v x hok
    cases v with
    | vdict es =>
      cases hg : dictGet es k with
      | none =>
        obtain ⟨nc, hnc⟩ := ih (Value.vdict []) x (putOk_empty rest)
        refine ⟨.vdict (dictSet es k nc), ?_⟩
        rw [ndPut, hg, hnc]
      | some c =>
        rw [putOk, hg] at hok
        obtain ⟨nc, hnc⟩ := ih c x hok
        refine ⟨.vdict (dictSet es k nc), ?_⟩
        rw [ndPut, hg, hnc]
    | vnum y => exact absurd hok (by simp [putOk])
    | vstr y => exact absurd hok (by simp [putOk])
    | vbool y => exact absurd hok (by simp [putOk])
    | vnull => exact absurd hok (by simp [putOk])

/-- A `put` on a mapping with a non-empty path yields a mapping. -/
theorem ndPut_vdict : ∀ (es : List (String × Value)) (k : String)
    (rest : List String) (x v' : Value),
    ndPut (.vdict es) (k :: rest) x = some v' →
    ∃ es2, v' = Value.vdict es2 := by
  intro es k rest x v' h
  rw [ndPut] at h
  cases hm : ndPut (match dictGet es k with
      | some c => c
      | none => Value.vdict []) rest x with
  | none => rw [hm] at h; exact absurd h (by simp)
  | some nc =>
    rw [hm] at h
    injection h with he
    exact ⟨dictSet es k nc, he.symm⟩

/-- Unfolding `ndGet` one step when the key is present. -/
theorem ndGet_cons_some (es : List (String × Value)) (k : String)
    (rest : List String) (w : Value) (h : dictGet es k = some w) :
    ndGet (.vdict es) (k :: rest) = ndGet w rest := by
  simp only [ndGet, h]

/-- Unfolding `ndGet` one step when the key is absent. -/
theorem ndGet_cons_none (es : List (String × Value)) (k : String)
    (rest : List String) (h : dictGet es k = none) :
    ndGet (.vdict es) (k :: rest) = none := by
  simp only [ndGet, h]

/-- Reading back the path just written returns the written value. -/
theorem ndGet_ndPut : ∀ (path : List String) (v x v' : Value),
    ndPut v path x = some v' → ndGet v' path = some x := by
  intro path
  induction path with
  | nil =>
    intro v x v' h
    have h2 : some x = some v' := by
      cases v <;> exact h
    injection h2 with he
    rw [← he]
    cases x <;> rfl
  | cons k rest ih =>
    intro v x v' h
    cases v with
    | vdict es =>
      rw [ndPut] at h
      cases hm : ndPut (match dictGet es k with
          | some c => c
          | none => Value.vdict []) rest x with
      | none => rw [hm] at h; exact absurd h (by simp)
      | some nc =>
        rw [hm] at h
        injection h with he
        rw [← he, ndGet_cons_some _ _ _ nc (dictGet_dictSet_self es k nc)]
        exact ih _ x nc hm
    | vnum y => exact absurd h (by simp [ndPut])
    | vstr y => exact absurd h (by simp [ndPut])
    | vbool y => exact absurd h (by simp [ndPut])
    | vnull => exact absurd h (by simp [ndPut])

/-- A `put` leaves the value at every diverging path unchanged. -/
theorem ndGet_ndPut_frame : ∀ (path : List String) (v x v' : Value)
    (q : List String), ndPut v path x = some v' →
    pathDiverges path q = true → ndGet v' q = ndGet v q := by
  intro path
  induction path with
  | nil =>
    intro v x v' q _ hdiv
    exact absurd hdiv (by simp [pathDiverges])
  | cons k rest ih =>
    intro v x v' q h hdiv
    cases v with
    | vdict es =>
      rw [ndPut] at h
      cases hm : ndPut (match dictGet es k with
          | some c => c
          | none => Value.vdict []) rest x with
      | none => rw [hm] at h; exact absurd h (by simp)
      | some nc =>
        rw [hm] at h
        injection h with he
        subst he
        cases q with
        | nil => exact absurd hdiv (by simp [pathDiverges])
        | cons k' q' =>
          by_cases hkk : k = k'
          · subst hkk
            have hdiv2 : pathDiverges rest q' = true := by
              rw [pathDiverges] at hdiv
              simpa using hdiv
            rw [ndGet_cons_some _ _ _ nc (dictGet_dictSet_self es k nc)]
            cases hg : dictGet es k with
            | none =>
              rw [hg] at hm
              have hq : ndGet nc q' = ndGet (Value.vdict []) q' :=
                ih (Value.vdict []) x nc q' hm hdiv2
              rw [hq, ndGet_cons_none es k q' hg]
              cases q' with
              | nil => exact absurd hdiv2 (by cases rest <;> simp [pathDiverges])
              | cons k'' q'' => exact ndGet_cons_none [] k'' q'' rfl
            | some c =>
              rw [hg] at hm
              rw [ndGet_cons_some es k q' c hg]
              exact ih c x nc q' hm hdiv2
          · cases hg' : dictGet es k' with
            | none =>
              rw [ndGet_cons_none _ _ _ (by
                  rw [dictGet_dictSet_other es k k' nc hkk]
                  exact hg'),
                ndGet_cons_none es k' q' hg']
            | some w =>
              rw [ndGet_cons_some _ _ _ w (by
                  rw [dictGet_dictSet_other es k k' nc hkk]
                  exact hg'),
                ndGet_cons_some es k' q' w hg']
    | vnum y => exact absurd h (by simp [ndPut])
    | vstr y => exact absurd h (by simp [ndPut])
    | vbool y => exact absurd h (by simp [ndPut])
    | vnull => exact absurd h (by simp [ndPut])

/-- A list permuting a two-element list of distinct elements is one of its
two orderings. -/
theorem perm_pair_eq (l : List String) (a b : String) (hab : a ≠ b)
    (h : l.Perm [a, b]) : l = [a, b] ∨ l = [b, a] := by
  rcases l with _ | ⟨x, _ | ⟨y, _ | ⟨z, r⟩⟩⟩
  · exact absurd h.length_eq (by simp)
  · exact absurd h.length_eq (by simp)
  · have hx : x ∈ [a, b] := h.mem_iff.mp (by simp)
    have hy : y ∈ [a, b] := h.mem_iff.mp (by simp)
    simp only [List.mem_cons, List.mem_singleton, List.not_mem_nil,
      or_false] at hx hy
    rcases hx with rfl | rfl <;> rcases hy with rfl | rfl
    · have hc := h.count_eq b
      simp [List.count_cons, hab, Ne.symm hab] at hc
    · exact Or.inl rfl
    · exact Or.inr rfl
    · have hc := h.count_eq a
      simp [List.count_cons, hab, Ne.symm hab] at hc
  · exact absurd h.length_eq (by simp)

/-- C9: on a composite whose top-level keys are exactly `"2020"` and
`"2021"` (plus optionally `"invariant"`), with the weight path holding 70
under `"2020"` and 75 under `"2021"`, `CalculateWeightGain` writes 5
(latest minus earliest weight) at `invariant.<weight_gain path>` and leaves
the value of every path diverging from the written one unchanged. -/
theorem claim_C9 (weightPath gainPath : List String)
    (composite : List (String × Value))
    (hkeys : (composite.map Prod.fst).Perm ["2020", "2021"] ∨
      (composite.map Prod.fst).Perm ["2020", "2021", "invariant"])
    (hw20 : ndGet (.vdict composite) ("2020" :: weightPath) = some (.vnum 70))
    (hw21 : ndGet (.vdict composite) ("2021" :: weightPath) = some (.vnum 75))
    (hput : putOk (.vdict composite) ("invariant" :: gainPath) = true) :
    ∃ es', weight_gain_call weightPath gainPath composite = some es' ∧
      ndGet (.vdict es') ("invariant" :: gainPath) = some (.vnum 5) ∧
      ∀ q, pathDiverges ("invariant" :: gainPath) q = true →
        ndGet (.vdict es') q = ndGet (.vdict composite) q := by
  have hper : ((composite.map Prod.fst).filter
      (fun k => k ≠ "invariant")).Perm ["2020", "2021"] := by
    rcases hkeys with h | h
    · have h2 := List.Perm.filter (fun k => k ≠ "invariant") h
      have h3 : (["2020", "2021"] : List String).filter
          (fun k => k ≠ "invariant") = ["2020", "2021"] := by decide
      rw [h3] at h2
      exact h2
    · have h2 := List.Perm.filter (fun k => k ≠ "invariant") h
      have h3 : (["2020", "2021", "invariant"] : List String).filter
          (fun k => k ≠ "invariant") = ["2020", "2021"] := by decide
      rw [h3] at h2
      exact h2
  have hper2 := perm_pair_eq _ _ _ (by decide) hper
  obtain ⟨v', hv'⟩ := ndPut_ok ("invariant" :: gainPath) (.vdict composite)
    (.vnum 5) hput
  obtain ⟨es2, he2⟩ := ndPut_vdict composite "invariant" gainPath
    (.vnum 5) v' hv'
  subst he2
  refine ⟨es2, ?_, ndGet_ndPut _ _ _ _ hv',
    fun q hq => ndGet_ndPut_frame _ _ _ _ q hv' hq⟩
  have hnum : (75 : ℚ) - 70 = 5 := by norm_num
  rcases hper2 with he | he
  · have hmin : listMinS ["2020", "2021"] = some "2020" := by decide
    have hmax : listMaxS ["2020", "2021"] = some "2021" := by decide
    simp only [weight_gain_call, he, hmin, hmax, hw20, hw21, hnum, hv']
  · have hmin : listMinS ["2021", "2020"] = some "2020" := by decide
    have hmax : listMaxS ["2021", "2020"] = some "2021" := by decide
    simp only [weight_gain_call, he, hmin, hmax, hw20, hw21, hnum, hv']

/-- C9 (witness): the theorem applied to the concrete two-period composite
of the specification's scenario. -/
theorem claim_C9_witness :
    ∃ es', weight_gain_call ["weight"] ["weight_gain"]
        [("2020", Value.vdict [("weight", Value.vnum 70)]),
         ("2021", Value.vdict [("weight", Value.vnum 75)])] = some es' ∧
      ndGet (.vdict es') ["invariant", "weight_gain"] = some (.vnum 5) ∧
      ∀ q, pathDiverges ["invariant", "weight_gain"] q = true →
        ndGet (.vdict es') q = ndGet (.vdict
          [("2020", Value.vdict [("weight", Value.vnum 70)]),
           ("2021", Value.vdict [("weight", Value.vnum 75)])]) q :=
  claim_C9 ["weight"] ["weight_gain"]
    [("2020", Value.vdict [("weight", Value.vnum 70)]),
     ("2021", Value.vdict [("weight", Value.vnum 75)])]
    (Or.inl (List.Perm.refl _)) rfl rfl rfl

/-- C1 (witness): the amended characterization applied to the candidate `C`
of the counterexample track, whose immediate parent is a Folder. -/
theorem claim_C1_amended_witness :
    check_ancestor trackC1 "V" 10 "C" true = some true :=
  (claim_C1_amended trackC1 "V" 9 "C").mpr
    ⟨⟨PyClass.text, "C", "c", 0, some "F", [], []⟩, "F",
     ⟨PyClass.folder, "F", "f", 0, some "L", [], []⟩,
     by decide, by decide, by decide, by decide, by decide⟩

/-- C3 (witness): the characterization applied to a concrete List variable
declaring a Folder source, which validates. -/
theorem claim_C3_witness :
    validate_sources_noninit ⟨PyClass.list, "T", "t", 0, none, ["S"], []⟩
      (Track.mk [("S", ⟨PyClass.folder, "S", "s", 0, none, [], []⟩)])
      ["S"] = true :=
  (claim_C3 ⟨PyClass.list, "T", "t", 0, none, ["S"], []⟩
    (Track.mk [("S", ⟨PyClass.folder, "S", "s", 0, none, [], []⟩)])
    ["S"]).mpr ⟨Or.inl (by decide), by
      intro s hs
      rw [List.mem_singleton] at hs
      subst hs
      exact ⟨⟨PyClass.folder, "S", "s", 0, none, [], []⟩, by decide,
        Or.inr ⟨rfl, Or.inr rfl⟩⟩⟩

end Polytropos

